import Mathlib

/-!
Verification of the privacy-sandbox aggregation service protocol core.

The repository's visible Go sources are the `browsersimulator` test file and
the `dpf_aggregate_partial_report` pipeline driver.  The protocol library
itself (`secretshare`, `conversion`, `conversionaggregator`, `dpfaggregator`)
is exercised by those sources but its implementation is not present, so the
library operations are modelled from the specification, while functions whose
bodies appear in the sources (`mergeReportFn`, `createConversions`) are
translated directly.
-/

namespace SecretShare

/-- Modelled from the spec: `SplitBytes(data) -> (share1, share2)` from
`secretshare` (implementation not in the sources): share1 is random bytes of
`len(data)` (here drawn from the tape `r`), share2 = data XOR share1. -/
def SplitIntoByteShares (data : List Nat) (r : Nat → Nat) : List Nat × List Nat :=
  let share1 := (List.range data.length).map (fun i => r i % 256)
  (share1, List.zipWith Nat.xor data share1)

/-- Modelled from the spec: `CombineBytes(share1, share2)` from `secretshare`
(implementation not in the sources): fails with a length-mismatch error if the
shares differ in length; otherwise returns the byte-wise XOR of the two. -/
def CombineByteShares (share1 share2 : List Nat) : Except String (List Nat) :=
  if share1.length = share2.length then
    .ok (List.zipWith Nat.xor share1 share2)
  else
    .error "LengthMismatch"

/-- Modelled from the spec: `SplitInt(value, modulus)` from `secretshare`
(implementation not in the sources): share1 is uniform in `[0, modulus)`
(here the tape value `r` reduced mod `modulus`), share2 = (value − share1)
mod modulus. -/
def SplitIntShares (value modulus : Int) (r : Int) : Int × Int :=
  let share1 := r % modulus
  (share1, (value - share1) % modulus)

/-- Modelled from the spec: `CombineInt(share1, share2, modulus)` from
`secretshare` (implementation not in the sources): returns
(share1 + share2) mod modulus. -/
def CombineIntShares (share1 share2 modulus : Int) : Int :=
  (share1 + share2) % modulus

theorem zipWith_xor_left_cancel :
    ∀ (a b : List Nat), a.length = b.length →
      List.zipWith Nat.xor b (List.zipWith Nat.xor a b) = a
  | [], [], _ => rfl
  | x :: xs, y :: ys, h => by
    simp only [List.zipWith_cons_cons]
    rw [zipWith_xor_left_cancel xs ys (by simpa using h)]
    show (y ^^^ (x ^^^ y)) :: xs = x :: xs
    rw [Nat.xor_comm x y, ← Nat.xor_assoc, Nat.xor_self, Nat.zero_xor]

end SecretShare

namespace BrowserSimulator

/-- One decrypted partial report as consumed by `mergeReportFn`
(`pb.PartialReport`): a byte-string key share and an integer value share. -/
structure PartialReport where
  KeyShare : List Nat
  ValueShare : Nat
deriving DecidableEq, Repr

/-- A raw conversion as re-assembled by `mergeReportFn`. -/
structure rawConversion where
  Key : List Nat
  Value : Nat
deriving DecidableEq, Repr

/-- Translation of `mergeReportFn` from the sources: the two iterators over
each helper's partial reports for a given report ID are modelled as lists;
the function takes the first report from each, errors if either is missing,
combines the key shares and emits one combined conversion.  Emissions are the
`.ok` payload; an error emits nothing.  The Go code casts the combined value
share to `uint16`, modelled by reduction mod 2^16. -/
def mergeReportFn (_reportID : String) (prs1 prs2 : List PartialReport) :
    Except String (List rawConversion) :=
  match prs1 with
  | [] => .error "missing partial report for helper 1"
  | pr1 :: _ =>
    match prs2 with
    | [] => .error "missing partial report for helper 2"
    | pr2 :: _ =>
      match SecretShare.CombineByteShares pr1.KeyShare pr2.KeyShare with
      | .error e => .error e
      | .ok key =>
        .ok [{ Key := key,
               Value := (pr1.ValueShare + pr2.ValueShare) % 65536 }]

end BrowserSimulator

namespace DPFCombine

/-- Chunks of size `s + 1`: the head together with the next `s` elements,
then recurse on the rest.  Used to model segmented combination. -/
def chunked (s : Nat) : List α → List (List α)
  | [] => []
  | x :: xs => (x :: xs.take s) :: chunked s (xs.drop s)
termination_by l => l.length
decreasing_by simp only [List.length_drop, List.length_cons]; omega

/-- Modelled from the spec: direct combine (`directCombine=true` in
`dpf_aggregate_partial_report.go`) sums all expanded vectors eagerly into one
in-memory vector; with `g` the point-wise combined value of the expanded DPF
vectors, the result lists `g` over the whole domain `[0, N)`. -/
def directCombineVec (g : Nat → Int) (N : Nat) : List Int :=
  (List.range N).map g

/-- Modelled from the spec: segmented combine (`directCombine=false`) processes
the domain in `segmentLength`-sized chunks to bound peak memory, producing the
per-segment vectors and concatenating them. -/
def segmentedCombineVec (g : Nat → Int) (N segmentLength : Nat) : List Int :=
  if segmentLength = 0 then []
  else ((chunked (segmentLength - 1) (List.range N)).map (fun seg => seg.map g)).flatten

theorem chunked_flatten (s : Nat) : ∀ l : List α, (chunked s l).flatten = l
  | [] => by rw [chunked]; rfl
  | x :: xs => by
    rw [chunked]
    simp only [List.flatten_cons]
    rw [chunked_flatten s (xs.drop s)]
    simp [List.cons_append, List.take_append_drop]
termination_by l => l.length
decreasing_by simp only [List.length_drop, List.length_cons]; omega

end DPFCombine

namespace RandomShares

/-- Byte strings of length `n`: the domain of the byte splitter's input, of
its random tape and of its shares. -/
abbrev ByteVec (n : Nat) := Fin n → Fin 256

/-- XOR on bytes. -/
def bxor (a b : Fin 256) : Fin 256 :=
  ⟨a.val ^^^ b.val, @Nat.xor_lt_two_pow a.val b.val 8 a.isLt b.isLt⟩

theorem bxor_left_cancel (d a : Fin 256) : bxor d (bxor d a) = a := by
  apply Fin.ext
  show d.val ^^^ (d.val ^^^ a.val) = a.val
  exact Nat.xor_cancel_left _ _

/-- Modelled from the spec: one call of the byte splitter on input `d` with
the fresh random tape `r` of that call: share1 = r, share2 = d XOR r. -/
def byteSplitShares {n : Nat} (d r : ByteVec n) : ByteVec n × ByteVec n :=
  (r, fun i => bxor (d i) (r i))

/-- The cross-call collision event of the two-independent-calls property:
some share of the first call (tape `r1`) equals some share of the second
call (tape `r2`). -/
def splitCollision {n : Nat} (d r1 r2 : ByteVec n) : Prop :=
  (byteSplitShares d r1).1 = (byteSplitShares d r2).1 ∨
  (byteSplitShares d r1).1 = (byteSplitShares d r2).2 ∨
  (byteSplitShares d r1).2 = (byteSplitShares d r2).1 ∨
  (byteSplitShares d r1).2 = (byteSplitShares d r2).2

instance {n : Nat} (d r1 r2 : ByteVec n) : Decidable (splitCollision d r1 r2) := by
  unfold splitCollision
  infer_instance

/-- The tape pairs (equiprobable under the uniform fresh draws) on which the
two calls collide. -/
def splitCollisionPairs (n : Nat) (d : ByteVec n) : Finset (ByteVec n × ByteVec n) :=
  Finset.univ.filter (fun p => splitCollision d p.1 p.2)

theorem splitCollision_iff {n : Nat} (d r1 r2 : ByteVec n) :
    splitCollision d r1 r2 ↔ (r1 = r2 ∨ r1 = fun i => bxor (d i) (r2 i)) := by
  unfold splitCollision byteSplitShares
  simp only []
  constructor
  · rintro (h | h | h | h)
    · exact Or.inl h
    · exact Or.inr h
    · refine Or.inr (funext fun i => ?_)
      have hi := congrFun h i
      simp only [] at hi
      rw [← hi, bxor_left_cancel]
    · refine Or.inl (funext fun i => ?_)
      have hi := congrFun h i
      simp only [] at hi
      have := congrArg (bxor (d i)) hi
      rwa [bxor_left_cancel, bxor_left_cancel] at this
  · rintro (h | h)
    · exact Or.inl h
    · exact Or.inr (Or.inl h)

theorem card_filter_fst_eq {V : Type} [Fintype V] [DecidableEq V] (g : V → V) :
    (Finset.univ.filter (fun p : V × V => p.1 = g p.2)).card = Fintype.card V := by
  have himg : Finset.univ.filter (fun p : V × V => p.1 = g p.2) =
      Finset.univ.image (fun v => (g v, v)) := by
    ext ⟨x, y⟩
    simp only [Finset.mem_filter, Finset.mem_univ, true_and, Finset.mem_image]
    constructor
    · intro h
      exact ⟨y, by rw [h]⟩
    · rintro ⟨v, hv⟩
      injection hv with h1 h2
      rw [← h1, h2]
  rw [himg, Finset.card_image_of_injective _ (fun a b h => congrArg Prod.snd h)]
  exact Finset.card_univ

theorem card_filter_diag {V : Type} [Fintype V] [DecidableEq V] :
    (Finset.univ.filter (fun p : V × V => p.1 = p.2)).card = Fintype.card V := by
  have himg : Finset.univ.filter (fun p : V × V => p.1 = p.2) =
      Finset.univ.image (fun v => (v, v)) := by
    ext ⟨x, y⟩
    simp only [Finset.mem_filter, Finset.mem_univ, true_and, Finset.mem_image]
    constructor
    · intro h
      exact ⟨y, by rw [h]⟩
    · rintro ⟨v, hv⟩
      injection hv with h1 h2
      rw [← h1, ← h2]
  rw [himg, Finset.card_image_of_injective _ (fun a b h => congrArg Prod.snd h)]
  exact Finset.card_univ

end RandomShares

namespace ReportID

/-- Modelled from the spec: `createRandomReportID` (body not in the sources;
the test only observes two calls) assigns a fresh random, 128-bit
report ID, modelled as reading the next value off the uniform random tape. -/
def createRandomReportID (tape : Fin (2 ^ 128)) : Fin (2 ^ 128) := tape

/-- The tape pairs (equiprobable under the uniform fresh draws) on which two
independent calls of the report-ID generator return the same ID. -/
def idCollisionPairs : Finset (Fin (2 ^ 128) × Fin (2 ^ 128)) :=
  Finset.univ.filter (fun p => createRandomReportID p.1 = createRandomReportID p.2)

end ReportID

namespace PrivateJoin

/-- Modelled from the spec: `Exponentiate(ciphertextKey, s)` from
`elgamalencrypt` (implementation not in the sources): raises the encoded key
to the helper's secret exponent in the multiplicative group mod `p`. -/
def Exponentiate (p x s : Nat) : Nat := x ^ s % p

/-- Modelled from the spec: the private-join combine of the two helpers'
independently derived `AggregationIDShare`s for a bucket key `k`: the encoded
key is exponentiated by helper 1's secret `s1` and then by helper 2's secret
`s2` (commutative re-keying), yielding the joint aggregation identifier
`k^(s1*s2) mod p`. -/
def combinedAggregationID (p s1 s2 k : Nat) : Nat :=
  Exponentiate p (Exponentiate p k s1) s2

theorem combinedAggregationID_eq_pow (p s1 s2 k : Nat) :
    combinedAggregationID p s1 s2 k = k ^ (s1 * s2) % p := by
  unfold combinedAggregationID Exponentiate
  rw [← Nat.pow_mod, ← pow_mul]

/-- Re-keying is commutative across helpers: the order in which the two
secrets are applied does not change the joint identifier. -/
theorem combinedAggregationID_comm (p s1 s2 k : Nat) :
    combinedAggregationID p s1 s2 k = combinedAggregationID p s2 s1 k := by
  rw [combinedAggregationID_eq_pow, combinedAggregationID_eq_pow, Nat.mul_comm]

theorem pow_left_injective_of_coprime {p : ℕ} [Fact p.Prime] {e : ℕ}
    (hco : Nat.Coprime e (p - 1)) {a b : ZMod p} (ha : a ≠ 0) (hb : b ≠ 0)
    (h : a ^ e = b ^ e) : a = b := by
  have hz : a * b⁻¹ ≠ 0 := mul_ne_zero ha (inv_ne_zero hb)
  have hpow : (a * b⁻¹) ^ e = 1 := by
    rw [mul_pow, inv_pow, h, mul_inv_cancel₀ (pow_ne_zero e hb)]
  have h1 : orderOf (a * b⁻¹) ∣ e := orderOf_dvd_of_pow_eq_one hpow
  have h2 : orderOf (a * b⁻¹) ∣ p - 1 :=
    orderOf_dvd_of_pow_eq_one (ZMod.pow_card_sub_one_eq_one hz)
  have : orderOf (a * b⁻¹) ∣ Nat.gcd e (p - 1) := Nat.dvd_gcd h1 h2
  rw [hco] at this
  have := orderOf_eq_one_iff.mp (Nat.eq_one_of_dvd_one this)
  exact (mul_inv_eq_one₀ hb).mp this

end PrivateJoin

/-- C1: for every pair of bucket keys `(k1, k2)` (nonzero encodings in the
prime-order field, with the combined blinding exponent invertible mod the
group order — the "negligible probability" degenerate cases excluded), the
private-join combine of the two helpers' independently derived aggregation-ID
shares yields the same identifier iff `k1 = k2`. -/
theorem private_join_combine_iff (p s1 s2 k1 k2 : Nat) (hp : p.Prime)
    (hk1 : k1 % p ≠ 0) (hk2 : k2 % p ≠ 0) (h1 : k1 < p) (h2 : k2 < p)
    (hco : Nat.Coprime (s1 * s2) (p - 1)) :
    (PrivateJoin.combinedAggregationID p s1 s2 k1 =
      PrivateJoin.combinedAggregationID p s1 s2 k2) ↔ k1 = k2 := by
  haveI : Fact p.Prime := ⟨hp⟩
  rw [PrivateJoin.combinedAggregationID_eq_pow, PrivateJoin.combinedAggregationID_eq_pow]
  constructor
  · intro h
    have hcast : ((k1 : ZMod p)) ^ (s1 * s2) = ((k2 : ZMod p)) ^ (s1 * s2) := by
      have := (ZMod.natCast_eq_natCast_iff' (k1 ^ (s1 * s2)) (k2 ^ (s1 * s2)) p).mpr h
      push_cast at this
      exact this
    have ha : (k1 : ZMod p) ≠ 0 := by
      rw [Ne, ZMod.natCast_zmod_eq_zero_iff_dvd, Nat.dvd_iff_mod_eq_zero]
      exact hk1
    have hb : (k2 : ZMod p) ≠ 0 := by
      rw [Ne, ZMod.natCast_zmod_eq_zero_iff_dvd, Nat.dvd_iff_mod_eq_zero]
      exact hk2
    have := PrivateJoin.pow_left_injective_of_coprime hco ha hb hcast
    have := (ZMod.natCast_eq_natCast_iff' k1 k2 p).mp this
    rwa [Nat.mod_eq_of_lt h1, Nat.mod_eq_of_lt h2] at this
  · intro h; rw [h]

/-- C1 witness: with `p = 5`, secrets `1` and `3`, the identifiers of the
distinct keys `2` and `3` do not collide. -/
theorem private_join_combine_iff_witness :
    PrivateJoin.combinedAggregationID 5 1 3 2 ≠ PrivateJoin.combinedAggregationID 5 1 3 3 :=
  fun h => absurd
    ((private_join_combine_iff 5 1 3 2 3 (by norm_num) (by decide) (by decide)
      (by decide) (by decide) (by decide)).mp h)
    (by decide)

namespace DPF

/-- A pseudorandom generator for the DPF tree: expands a node seed into
(left seed, left control bit, right seed, right control bit).  Correctness of
the point-function secret sharing holds for every such function; only privacy
depends on its pseudorandomness. -/
abbrev PRG := Nat → Nat × Bool × Nat × Bool

/-- Per-level correction word of the tree-structured secret sharing: a seed
correction and the left/right control-bit corrections. -/
structure CorrectionWord where
  cs : Nat
  ctL : Bool
  ctR : Bool

/-- Modelled from the spec: one helper's half of a DPF key (`DPFKeyHalf`,
implementation not in the sources): domain bit-length is the length of `cws`
(one correction word per hierarchy level), plus the party's root seed and
control bit and the final output correction word. -/
structure DPFKeyHalf where
  seed : Nat
  t : Bool
  party : Bool
  cws : List CorrectionWord
  finalCW : Int

/-- One step of DPF evaluation: expand the current seed, descend into the
branch selected by `bit`, and apply the level's correction word when the
control bit is set. -/
def dpfStep (prg : PRG) (cw : CorrectionWord) (st : Nat × Bool) (bit : Bool) :
    Nat × Bool :=
  let g := prg st.1
  let s' := if bit then g.2.2.1 else g.1
  let t' := if bit then g.2.2.2 else g.2.1
  if st.2 then (s' ^^^ cw.cs, Bool.xor t' (if bit then cw.ctR else cw.ctL))
  else (s', t')

/-- Descend the DPF tree along the bits of the evaluation point. -/
def evalLevels (prg : PRG) : List CorrectionWord → Nat × Bool → List Bool → Nat × Bool
  | cw :: cws, st, b :: bs => evalLevels prg cws (dpfStep prg cw st b) bs
  | _, st, _ => st

/-- Modelled from the spec: evaluating one DPF key half at domain point `x`
(given as a bit path): descend the tree, convert the leaf seed to an output
value, apply the final correction when the leaf control bit is set, and
negate for party 2 so that the two parties' outputs sum to the shared
function. -/
def dpfEval (prg : PRG) (convert : Nat → Int) (k : DPFKeyHalf) (x : List Bool) : Int :=
  let st := evalLevels prg k.cws (k.seed, k.t) x
  let out := convert st.1 + (if st.2 then k.finalCW else 0)
  if k.party then -out else out

/-- The correction word sampled at one level of key generation for path bit
`b`: the seed correction is the XOR of the two parties' seeds on the branch
off the path, and the control corrections are chosen so that off-path control
bits agree while on-path control bits keep differing. -/
def pathCW (prg : PRG) (b : Bool) (st0 st1 : Nat × Bool) : CorrectionWord :=
  let g0 := prg st0.1
  let g1 := prg st1.1
  { cs := if b then g0.1 ^^^ g1.1 else g0.2.2.1 ^^^ g1.2.2.1
    ctL := Bool.xor (Bool.xor g0.2.1 g1.2.1) (Bool.xor b true)
    ctR := Bool.xor (Bool.xor g0.2.2.2 g1.2.2.2) b }

/-- Modelled from the spec: key generation descends the tree level-by-level
along the path to the aggregation ID, at each level sampling the correction
word so that the two halves agree everywhere except along the path; returns
the correction words and the two parties' final states on the path. -/
def genCWs (prg : PRG) : List Bool → Nat × Bool → Nat × Bool →
    List CorrectionWord × (Nat × Bool) × (Nat × Bool)
  | [], st0, st1 => ([], st0, st1)
  | b :: bs, st0, st1 =>
    let cw := pathCW prg b st0 st1
    let rest := genCWs prg bs (dpfStep prg cw st0 b) (dpfStep prg cw st1 b)
    (cw :: rest.1, rest.2)

/-- Modelled from the spec: `GenerateKeyPair(aggregationID, valueShare,
bitLength)` (DPF implementation not in the sources): builds the two key
halves sharing the correction words, with root control bits 0 and 1 and the
final correction word chosen so the two leaf outputs at the ID differ by
exactly the payload `value`. -/
def GenerateKeyPair (prg : PRG) (convert : Nat → Int) (idBits : List Bool)
    (value : Int) (s0 s1 : Nat) : DPFKeyHalf × DPFKeyHalf :=
  let r := genCWs prg idBits (s0, false) (s1, true)
  let w : Int :=
    if r.2.1.2 then value - convert r.2.1.1 + convert r.2.2.1
    else convert r.2.1.1 - convert r.2.2.1 - value
  ({ seed := s0, t := false, party := false, cws := r.1, finalCW := w },
   { seed := s1, t := true, party := true, cws := r.1, finalCW := w })

theorem xor_shift (a b : Nat) : b ^^^ (a ^^^ b) = a := by
  rw [Nat.xor_comm a b]
  exact Nat.xor_cancel_left b a

theorem dpfStep_keep_xor (prg : PRG) (b : Bool) (st0 st1 : Nat × Bool)
    (hxor : Bool.xor st0.2 st1.2 = true) :
    Bool.xor (dpfStep prg (pathCW prg b st0 st1) st0 b).2
             (dpfStep prg (pathCW prg b st0 st1) st1 b).2 = true := by
  obtain ⟨s0, t0⟩ := st0
  obtain ⟨s1, t1⟩ := st1
  simp only [dpfStep, pathCW]
  generalize prg s0 = g0
  generalize prg s1 = g1
  obtain ⟨sL0, tL0, sR0, tR0⟩ := g0
  obtain ⟨sL1, tL1, sR1, tR1⟩ := g1
  simp only [] at hxor
  cases t0 <;> cases t1 <;> simp at hxor <;> cases b <;>
    simp [Prod.ext_iff, xor_shift, Nat.xor_cancel_left] <;>
    cases tL0 <;> cases tL1 <;> cases tR0 <;> cases tR1 <;> decide

theorem dpfStep_lose_eq (prg : PRG) (b : Bool) (st0 st1 : Nat × Bool)
    (hxor : Bool.xor st0.2 st1.2 = true) :
    dpfStep prg (pathCW prg b st0 st1) st0 (!b) =
      dpfStep prg (pathCW prg b st0 st1) st1 (!b) := by
  obtain ⟨s0, t0⟩ := st0
  obtain ⟨s1, t1⟩ := st1
  simp only [dpfStep, pathCW]
  generalize prg s0 = g0
  generalize prg s1 = g1
  obtain ⟨sL0, tL0, sR0, tR0⟩ := g0
  obtain ⟨sL1, tL1, sR1, tR1⟩ := g1
  simp only [] at hxor
  cases t0 <;> cases t1 <;> simp at hxor <;> cases b <;>
    simp [Prod.ext_iff, xor_shift, Nat.xor_cancel_left] <;>
    cases tL0 <;> cases tL1 <;> cases tR0 <;> cases tR1 <;> decide

theorem genCWs_final_t (prg : PRG) (path : List Bool) :
    ∀ st0 st1 : Nat × Bool, Bool.xor st0.2 st1.2 = true →
      Bool.xor (genCWs prg path st0 st1).2.1.2 (genCWs prg path st0 st1).2.2.2 = true := by
  induction path with
  | nil => intro st0 st1 h; simpa [genCWs] using h
  | cons b bs ih =>
    intro st0 st1 h
    simp only [genCWs]
    exact ih _ _ (dpfStep_keep_xor prg b st0 st1 h)

theorem genCWs_eval (prg : PRG) (path : List Bool) :
    ∀ (x : List Bool) (st0 st1 : Nat × Bool),
      x.length = path.length → Bool.xor st0.2 st1.2 = true →
      (x = path →
        evalLevels prg (genCWs prg path st0 st1).1 st0 x =
          (genCWs prg path st0 st1).2.1 ∧
        evalLevels prg (genCWs prg path st0 st1).1 st1 x =
          (genCWs prg path st0 st1).2.2) ∧
      (x ≠ path →
        evalLevels prg (genCWs prg path st0 st1).1 st0 x =
          evalLevels prg (genCWs prg path st0 st1).1 st1 x) := by
  induction path with
  | nil =>
    intro x st0 st1 hlen _
    have hx : x = [] := List.length_eq_zero.mp hlen
    subst hx
    exact ⟨fun _ => ⟨rfl, rfl⟩, fun h => absurd rfl h⟩
  | cons b bs ih =>
    intro x st0 st1 hlen hxor
    cases x with
    | nil => simp at hlen
    | cons xb xs =>
      have hlen' : xs.length = bs.length := by simpa using hlen
      by_cases hb : xb = b
      · subst hb
        have hxor' := dpfStep_keep_xor prg xb st0 st1 hxor
        have ihr := ih xs (dpfStep prg (pathCW prg xb st0 st1) st0 xb)
          (dpfStep prg (pathCW prg xb st0 st1) st1 xb) hlen' hxor'
        constructor
        · intro hx
          have hxs : xs = bs := by
            injection hx
          constructor
          · simp only [genCWs, evalLevels]
            exact (ihr.1 hxs).1
          · simp only [genCWs, evalLevels]
            exact (ihr.1 hxs).2
        · intro hx
          have hxs : xs ≠ bs := fun h => hx (by rw [h])
          simp only [genCWs, evalLevels]
          exact ihr.2 hxs
      · constructor
        · intro hx
          exact absurd (by injection hx) hb
        · intro _
          have hxb : xb = !b := by
            cases xb <;> cases b <;> simp_all
          have heq := dpfStep_lose_eq prg b st0 st1 hxor
          simp only [genCWs, evalLevels]
          rw [hxb, heq]

/-- The two halves' evaluations sum point-wise to the point function located
at the generation path, for any evaluation path of the same length. -/
theorem dpf_eval_sum (prg : PRG) (convert : Nat → Int) (idBits : List Bool)
    (value : Int) (s0 s1 : Nat) (x : List Bool) (hlen : x.length = idBits.length) :
    dpfEval prg convert (GenerateKeyPair prg convert idBits value s0 s1).1 x +
      dpfEval prg convert (GenerateKeyPair prg convert idBits value s0 s1).2 x =
      if x = idBits then value else 0 := by
  have hmain := genCWs_eval prg idBits x (s0, false) (s1, true) hlen rfl
  have hfin := genCWs_final_t prg idBits (s0, false) (s1, true) rfl
  simp only [GenerateKeyPair, dpfEval]
  rcases hgen : genCWs prg idBits (s0, false) (s1, true) with ⟨cws, ⟨f0s, f0t⟩, ⟨f1s, f1t⟩⟩
  rw [hgen] at hmain hfin
  simp only [] at hmain hfin ⊢
  by_cases hx : x = idBits
  · obtain ⟨h0, h1⟩ := hmain.1 hx
    rw [if_pos hx, h0, h1]
    cases f0t <;> cases f1t <;> simp at hfin <;> simp <;> ring
  · rw [if_neg hx, hmain.2 hx]
    simp
    ring

/-- Big-endian bit decomposition of `x` to `n` bits. -/
def natToBits (n x : Nat) : List Bool :=
  (List.range n).map (fun i => x.testBit (n - 1 - i))

theorem natToBits_length (n x : Nat) : (natToBits n x).length = n := by
  simp [natToBits]

theorem natToBits_injOn (n x y : Nat) (hx : x < 2 ^ n) (hy : y < 2 ^ n)
    (h : natToBits n x = natToBits n y) : x = y := by
  have hj : ∀ j, j < n → x.testBit (n - 1 - j) = y.testBit (n - 1 - j) := by
    intro j hjn
    have h1 : (natToBits n x)[j]? = (natToBits n y)[j]? := by rw [h]
    simp only [natToBits, List.getElem?_map, List.getElem?_range, hjn,
      if_pos, Option.map_some] at h1
    exact Option.some.inj h1
  apply Nat.eq_of_testBit_eq
  intro i
  by_cases hi : i < n
  · have := hj (n - 1 - i) (by omega)
    have harith : n - 1 - (n - 1 - i) = i := by omega
    rwa [harith] at this
  · have hxi : x < 2 ^ i := lt_of_lt_of_le hx (Nat.pow_le_pow_right (by omega) (by omega))
    have hyi : y < 2 ^ i := lt_of_lt_of_le hy (Nat.pow_le_pow_right (by omega) (by omega))
    rw [Nat.testBit_eq_false_of_lt hxi, Nat.testBit_eq_false_of_lt hyi]

end DPF

namespace Pipeline

/-- The `uint16` value domain of conversion values. -/
def M : Nat := 65536

/-- A raw conversion of the aggregation-pipeline test: a bucket key (the
`uuid` string modelled as a number) and a `uint16` value. -/
structure rawConversion where
  Key : Nat
  Value : Nat
deriving DecidableEq, Repr

/-- A final aggregate of `conversionaggregator`: bucket key, summed value and
contributing-report count. -/
structure CompleteResult where
  ConversionKey : Nat
  Sum : Nat
  Count : Nat
deriving DecidableEq, Repr

/-- One step of the inner `for j` loop of `createConversions` from the
sources: append one conversion of value 1 for the current key and count it,
unless `n` conversions have already been produced. -/
def innerLoop (key n : Nat) (acc : List rawConversion × Nat) (_j : Nat) :
    List rawConversion × Nat :=
  if n ≤ acc.1.length then acc
  else (acc.1 ++ [{ Key := key, Value := 1 }], acc.2 + 1)

/-- The outer `for i` loop of `createConversions` from the sources: one fresh
key (`keyGen i` models `uuid.New()`) per iteration, `n/10` inner iterations,
then an expected result with the per-key sum and twice-the-sum count, breaking
once `n` conversions exist. -/
def createConversionsAux (keyGen : Nat → Nat) (n : Nat) :
    Nat → Nat → List rawConversion → List CompleteResult →
    List rawConversion × List CompleteResult
  | 0, _, convs, results => (convs, results)
  | iters + 1, i, convs, results =>
    let key := keyGen i
    let inner := (List.range (n / 10)).foldl (innerLoop key n) (convs, 0)
    let results' := results ++
      [{ ConversionKey := key, Sum := inner.2, Count := inner.2 * 2 }]
    if n ≤ inner.1.length then (inner.1, results')
    else createConversionsAux keyGen n iters (i + 1) inner.1 results'

/-- Translation of `createConversions` from the sources: `n` conversions in
groups of `n/10` per key, together with the expected per-key results. -/
def createConversions (keyGen : Nat → Nat) (n : Nat) :
    List rawConversion × List CompleteResult :=
  createConversionsAux keyGen n ((n + 9) / 10) 0 [] []

/-- Modelled from the spec: transport (standard public-key) encryption as a
keyed mask; decryption with the matching private key inverts it. -/
def standardEncrypt (pub m : Nat) : Nat := m ^^^ pub

/-- Modelled from the spec: transport decryption. -/
def standardDecrypt (priv c : Nat) : Nat := c ^^^ priv

/-- One helper's encrypted partial report: fresh report ID, transport-encrypted
XOR share of the bucket key, transport-encrypted join-encoded bucket key, and
transport-encrypted additive value share. -/
structure PartialReport where
  ReportID : Nat
  EncKeyShare : Nat
  EncJoinKey : Nat
  EncValueShare : Nat
deriving DecidableEq, Repr

/-- A partial report after transport decryption by its helper. -/
structure DecryptedReport where
  ReportID : Nat
  KeyShare : Nat
  JoinKey : Nat
  ValueShare : Nat
deriving DecidableEq, Repr

/-- A record after the private join: the joint aggregation identifier plus the
helper's own key and value shares. -/
structure RekeyedRecord where
  ReportID : Nat
  AggID : Nat
  KeyShare : Nat
  ValueShare : Nat
deriving DecidableEq, Repr

/-- Modelled from the spec: `splitRawConversion` fans the `i`-th raw
conversion out into the two helpers' encrypted partial reports: a shared
fresh report ID, XOR shares of the bucket key (tape `rK`), additive shares of
the value mod 2^16 (tape `rV`), and the join-encodable key representation,
each transport-encrypted under the receiving helper's public key. -/
def splitRawConversion (pub1 pub2 : Nat) (rK rV : Nat → Nat) (i : Nat)
    (c : rawConversion) : PartialReport × PartialReport :=
  ({ ReportID := i,
     EncKeyShare := standardEncrypt pub1 (rK i),
     EncJoinKey := standardEncrypt pub1 c.Key,
     EncValueShare := standardEncrypt pub1 (rV i % M) },
   { ReportID := i,
     EncKeyShare := standardEncrypt pub2 (c.Key ^^^ rK i),
     EncJoinKey := standardEncrypt pub2 c.Key,
     EncValueShare := standardEncrypt pub2 ((c.Value + (M - rV i % M)) % M) })

/-- Modelled from the spec: `DecryptPartialReport` removes the transport
layer with the helper's private key. -/
def DecryptPartialReport (priv : Nat) (e : PartialReport) : DecryptedReport :=
  { ReportID := e.ReportID,
    KeyShare := standardDecrypt priv e.EncKeyShare,
    JoinKey := standardDecrypt priv e.EncJoinKey,
    ValueShare := standardDecrypt priv e.EncValueShare }

/-- Modelled from the spec: `ExponentiateKey` raises the join-encoded key to
the helper's own secret; the result is sent to the peer helper. -/
def ExponentiateKey (p sOwn : Nat) (d : DecryptedReport) : Nat :=
  PrivateJoin.Exponentiate p d.JoinKey sOwn

/-- Modelled from the spec: `RekeyByAggregationID` re-keys the peer's
exponentiated value with the helper's own secret, producing the joint
aggregation identifier, and carries the helper's key and value shares forward
as the aggregation payload. -/
def RekeyByAggregationID (p sOwn peerExp : Nat) (d : DecryptedReport) :
    RekeyedRecord :=
  { ReportID := d.ReportID,
    AggID := PrivateJoin.Exponentiate p peerExp sOwn,
    KeyShare := d.KeyShare,
    ValueShare := d.ValueShare }

/-- The per-record pipeline (split, decrypt at each helper, exponentiate,
exchange, rekey), yielding the two helpers' rekeyed records for the `i`-th
conversion.  In this model a helper's private key equals its public key. -/
def processConversion (p s1 s2 pub1 pub2 : Nat) (rK rV : Nat → Nat)
    (i : Nat) (c : rawConversion) : RekeyedRecord × RekeyedRecord :=
  (RekeyByAggregationID p s1
     (ExponentiateKey p s2
       (DecryptPartialReport pub2 (splitRawConversion pub1 pub2 rK rV i c).2))
     (DecryptPartialReport pub1 (splitRawConversion pub1 pub2 rK rV i c).1),
   RekeyByAggregationID p s2
     (ExponentiateKey p s1
       (DecryptPartialReport pub1 (splitRawConversion pub1 pub2 rK rV i c).1))
     (DecryptPartialReport pub2 (splitRawConversion pub1 pub2 rK rV i c).2))

/-- Both helpers' rekeyed record lists for a conversion batch. -/
def helperRecords (p s1 s2 pub1 pub2 : Nat) (rK rV : Nat → Nat)
    (cs : List rawConversion) : List RekeyedRecord × List RekeyedRecord :=
  ((cs.enum).map (fun ic => processConversion p s1 s2 pub1 pub2 rK rV ic.1 ic.2)).unzip

/-- One entry of a helper's partial aggregation: the aggregation identifier,
the key share of the group's smallest report ID (used by the merge to recover
the bucket key), the summed value shares and the contributing-report count. -/
structure PartialAggregation where
  AggID : Nat
  KeyShareRep : Nat
  PartialSum : Nat
  Count : Nat
deriving DecidableEq, Repr

/-- XOR-fold of a list of naturals. -/
def xorFold (l : List Nat) : Nat := l.foldr Nat.xor 0

/-- One step of the running minimum. -/
def minStep (a : Nat) (acc : Option Nat) : Option Nat :=
  match acc with
  | none => some a
  | some b => some (min a b)

/-- Minimum of a list of naturals, `none` on the empty list. -/
def listMin (l : List Nat) : Option Nat := l.foldr minStep none

/-- The group of a helper's rekeyed records sharing an aggregation ID. -/
def aggGroup (l : List RekeyedRecord) (id : Nat) : List RekeyedRecord :=
  l.filter (fun r => r.AggID == id)

/-- The partial-aggregation entry one helper computes for aggregation ID
`id` over its record list `l`: the key share(s) at the group's smallest
report ID, the group's value-share sum and its size. -/
def aggEntry (l : List RekeyedRecord) (id : Nat) : PartialAggregation :=
  { AggID := id,
    KeyShareRep := xorFold (((aggGroup l id).filter (fun r =>
        some r.ReportID == listMin ((aggGroup l id).map (fun r => r.ReportID)))).map
      (fun r => r.KeyShare)),
    PartialSum := ((aggGroup l id).map (fun r => r.ValueShare)).sum,
    Count := (aggGroup l id).length }

/-- Modelled from the spec: `AggregateDataShare` with `ignorePrivacy = true`
groups one helper's rekeyed records by aggregation identifier and produces,
per group, the summed value shares and the contributing-report count (no
noise), carrying the representative key share for the merge. -/
def AggregateDataShare (l : List RekeyedRecord) : List PartialAggregation :=
  ((l.map (fun r => r.AggID)).dedup).map (aggEntry l)

/-- Modelled from the spec: `MergeAggregation` joins the two helpers' partial
aggregations by aggregation identifier, recovers the bucket key by combining
the representative key shares, sums the partial sums back into the `uint16`
value domain and adds the counts. -/
def MergeAggregation (a1 a2 : List PartialAggregation) : List CompleteResult :=
  a1.filterMap (fun e1 =>
    (a2.find? (fun e2 => e2.AggID == e1.AggID)).map (fun e2 =>
      { ConversionKey := e1.KeyShareRep ^^^ e2.KeyShareRep,
        Sum := (e1.PartialSum + e2.PartialSum) % M,
        Count := e1.Count + e2.Count }))

instance : LeftCommutative Nat.xor :=
  ⟨fun a b c => by
    show a ^^^ (b ^^^ c) = b ^^^ (a ^^^ c)
    rw [← Nat.xor_assoc, Nat.xor_comm a b, Nat.xor_assoc]⟩

instance : LeftCommutative minStep :=
  ⟨fun a b c => by
    cases c <;> simp [minStep, min_comm, min_left_comm]⟩

theorem xorFold_perm {l l' : List Nat} (h : l.Perm l') : xorFold l = xorFold l' :=
  h.foldr_eq 0

theorem listMin_perm {l l' : List Nat} (h : l.Perm l') : listMin l = listMin l' :=
  h.foldr_eq none

theorem aggGroup_perm {l l' : List RekeyedRecord} (h : l.Perm l') (id : Nat) :
    (aggGroup l id).Perm (aggGroup l' id) :=
  h.filter _

theorem aggEntry_perm {l l' : List RekeyedRecord} (h : l.Perm l') (id : Nat) :
    aggEntry l id = aggEntry l' id := by
  have hg := aggGroup_perm h id
  have hm : listMin ((aggGroup l id).map (fun r => r.ReportID)) =
      listMin ((aggGroup l' id).map (fun r => r.ReportID)) :=
    listMin_perm (hg.map _)
  unfold aggEntry
  rw [PartialAggregation.mk.injEq]
  refine ⟨rfl, ?_, ?_, ?_⟩
  · rw [hm]
    exact xorFold_perm ((hg.filter _).map _)
  · exact (hg.map _).sum_eq
  · exact hg.length_eq

theorem aggregateDataShare_perm {l l' : List RekeyedRecord} (h : l.Perm l') :
    (AggregateDataShare l).Perm (AggregateDataShare l') := by
  unfold AggregateDataShare
  have hmap : ((l.map (fun r => r.AggID)).dedup).map (aggEntry l) =
      ((l.map (fun r => r.AggID)).dedup).map (aggEntry l') :=
    List.map_congr_left (fun id _ => aggEntry_perm h id)
  rw [hmap]
  exact ((h.map _).dedup).map _

theorem aggregateDataShare_ids (l : List RekeyedRecord) :
    (AggregateDataShare l).map (fun e => e.AggID) = (l.map (fun r => r.AggID)).dedup := by
  unfold AggregateDataShare
  rw [List.map_map]
  have hcomp : ((fun e : PartialAggregation => e.AggID) ∘ aggEntry l) = id :=
    funext (fun id => rfl)
  rw [hcomp, List.map_id]

theorem find?_perm_of_nodup_keys {a a' : List PartialAggregation} (h : a.Perm a')
    (hnd : (a.map (fun e => e.AggID)).Nodup) (id : Nat) :
    a.find? (fun e => e.AggID == id) = a'.find? (fun e => e.AggID == id) := by
  cases hf : a.find? (fun e => e.AggID == id) with
  | none =>
    rw [List.find?_eq_none] at hf
    symm
    rw [List.find?_eq_none]
    intro x hx
    exact hf x (h.mem_iff.mpr hx)
  | some e =>
    have hmem : e ∈ a := List.mem_of_find?_eq_some hf
    have hpe := List.find?_some hf
    cases hf' : a'.find? (fun x => x.AggID == id) with
    | none =>
      rw [List.find?_eq_none] at hf'
      exact absurd hpe (hf' e (h.mem_iff.mp hmem))
    | some e' =>
      have hmem' : e' ∈ a := h.mem_iff.mpr (List.mem_of_find?_eq_some hf')
      have hpe' := List.find?_some hf'
      have hee : e = e' := by
        apply List.inj_on_of_nodup_map hnd hmem hmem'
        have h1 : e.AggID = id := by simpa using hpe
        have h2 : e'.AggID = id := by simpa using hpe'
        rw [h1, h2]
      rw [hee]

theorem mergeAggregation_perm {a1 a1' a2 a2' : List PartialAggregation}
    (h1 : a1.Perm a1') (h2 : a2.Perm a2')
    (hnd : (a2.map (fun e => e.AggID)).Nodup) :
    (MergeAggregation a1 a2).Perm (MergeAggregation a1' a2') := by
  unfold MergeAggregation
  have hF : (fun e1 : PartialAggregation =>
      (a2.find? (fun e2 => e2.AggID == e1.AggID)).map (fun e2 =>
        ({ ConversionKey := e1.KeyShareRep ^^^ e2.KeyShareRep,
           Sum := (e1.PartialSum + e2.PartialSum) % M,
           Count := e1.Count + e2.Count } : CompleteResult))) =
      (fun e1 : PartialAggregation =>
      (a2'.find? (fun e2 => e2.AggID == e1.AggID)).map (fun e2 =>
        ({ ConversionKey := e1.KeyShareRep ^^^ e2.KeyShareRep,
           Sum := (e1.PartialSum + e2.PartialSum) % M,
           Count := e1.Count + e2.Count } : CompleteResult))) := by
    funext e1
    rw [find?_perm_of_nodup_keys h2 hnd]
  rw [hF]
  exact h1.filterMap _

/-- Grouping, aggregation and merging are insensitive to the order in which
either helper's records are processed. -/
theorem merge_aggregate_perm {l1 l1' l2 l2' : List RekeyedRecord}
    (h1 : l1.Perm l1') (h2 : l2.Perm l2') :
    (MergeAggregation (AggregateDataShare l1) (AggregateDataShare l2)).Perm
      (MergeAggregation (AggregateDataShare l1') (AggregateDataShare l2')) :=
  mergeAggregation_perm (aggregateDataShare_perm h1) (aggregateDataShare_perm h2)
    (by rw [aggregateDataShare_ids]; exact List.nodup_dedup _)

/-- The joint aggregation identifier both helpers derive for bucket key `k`. -/
def aggIDOf (p s1 s2 k : Nat) : Nat := PrivateJoin.combinedAggregationID p s1 s2 k

/-- Helper 1's rekeyed record for the `i`-th conversion, in closed form. -/
def recOf1 (p s1 s2 : Nat) (rK rV : Nat → Nat) (ic : Nat × rawConversion) :
    RekeyedRecord :=
  { ReportID := ic.1, AggID := aggIDOf p s1 s2 ic.2.Key,
    KeyShare := rK ic.1, ValueShare := rV ic.1 % M }

/-- Helper 2's rekeyed record for the `i`-th conversion, in closed form. -/
def recOf2 (p s1 s2 : Nat) (rK rV : Nat → Nat) (ic : Nat × rawConversion) :
    RekeyedRecord :=
  { ReportID := ic.1, AggID := aggIDOf p s1 s2 ic.2.Key,
    KeyShare := ic.2.Key ^^^ rK ic.1,
    ValueShare := (ic.2.Value + (M - rV ic.1 % M)) % M }

theorem helperRecords_fst (p s1 s2 pub1 pub2 : Nat) (rK rV : Nat → Nat)
    (cs : List rawConversion) :
    (helperRecords p s1 s2 pub1 pub2 rK rV cs).1 =
      (cs.enum).map (recOf1 p s1 s2 rK rV) := by
  unfold helperRecords
  rw [List.unzip_fst, List.map_map]
  apply List.map_congr_left
  intro ic _
  show (processConversion p s1 s2 pub1 pub2 rK rV ic.1 ic.2).1 = recOf1 p s1 s2 rK rV ic
  simp only [processConversion, splitRawConversion, DecryptPartialReport,
    RekeyByAggregationID, ExponentiateKey, standardEncrypt, standardDecrypt, recOf1]
  rw [RekeyedRecord.mk.injEq]
  refine ⟨rfl, ?_, by rw [Nat.xor_cancel_right], by rw [Nat.xor_cancel_right]⟩
  show PrivateJoin.Exponentiate p
      (PrivateJoin.Exponentiate p ((ic.2.Key ^^^ pub2) ^^^ pub2) s2) s1 =
    aggIDOf p s1 s2 ic.2.Key
  rw [Nat.xor_cancel_right]
  exact PrivateJoin.combinedAggregationID_comm p s2 s1 ic.2.Key

theorem helperRecords_snd (p s1 s2 pub1 pub2 : Nat) (rK rV : Nat → Nat)
    (cs : List rawConversion) :
    (helperRecords p s1 s2 pub1 pub2 rK rV cs).2 =
      (cs.enum).map (recOf2 p s1 s2 rK rV) := by
  unfold helperRecords
  rw [List.unzip_snd, List.map_map]
  apply List.map_congr_left
  intro ic _
  show (processConversion p s1 s2 pub1 pub2 rK rV ic.1 ic.2).2 = recOf2 p s1 s2 rK rV ic
  simp only [processConversion, splitRawConversion, DecryptPartialReport,
    RekeyByAggregationID, ExponentiateKey, standardEncrypt, standardDecrypt, recOf2]
  rw [RekeyedRecord.mk.injEq]
  refine ⟨rfl, ?_, by rw [Nat.xor_cancel_right], by rw [Nat.xor_cancel_right]⟩
  show PrivateJoin.Exponentiate p
      (PrivateJoin.Exponentiate p ((ic.2.Key ^^^ pub1) ^^^ pub1) s1) s2 =
    aggIDOf p s1 s2 ic.2.Key
  rw [Nat.xor_cancel_right]
  rfl

theorem find?_map_aggEntry (l2 : List RekeyedRecord) :
    ∀ (ids : List Nat), ∀ id ∈ ids,
      (ids.map (aggEntry l2)).find? (fun e => e.AggID == id) = some (aggEntry l2 id)
  | [], id, hid => absurd hid (by simp)
  | a :: t, id, hid => by
    by_cases hai : a = id
    · subst hai
      rw [List.map_cons, List.find?_cons_of_pos _ (by simp [aggEntry])]
    · rw [List.map_cons, List.find?_cons_of_neg _ (by simp [aggEntry, hai])]
      have hmem : id ∈ t := by
        rcases List.mem_cons.mp hid with h | h
        · exact absurd h.symm hai
        · exact h
      exact find?_map_aggEntry l2 t id hmem

theorem filterMap_eq_map_of_some {α β : Type} {f : α → Option β} {g : α → β} :
    ∀ l : List α, (∀ a ∈ l, f a = some (g a)) → l.filterMap f = l.map g
  | [], _ => rfl
  | a :: t, h => by
    rw [List.filterMap_cons, h a (by simp), List.map_cons,
      filterMap_eq_map_of_some t (fun x hx => h x (by simp [hx]))]

theorem mergeAggregation_map_eq (l1 l2 : List RekeyedRecord)
    (hid : l1.map (fun r => r.AggID) = l2.map (fun r => r.AggID)) :
    MergeAggregation (AggregateDataShare l1) (AggregateDataShare l2) =
      ((l1.map (fun r => r.AggID)).dedup).map (fun id =>
        { ConversionKey := (aggEntry l1 id).KeyShareRep ^^^ (aggEntry l2 id).KeyShareRep,
          Sum := ((aggEntry l1 id).PartialSum + (aggEntry l2 id).PartialSum) % M,
          Count := (aggEntry l1 id).Count + (aggEntry l2 id).Count }) := by
  unfold MergeAggregation AggregateDataShare
  rw [← hid, List.filterMap_map]
  apply filterMap_eq_map_of_some
  intro id hid'
  show ((((l1.map (fun r => r.AggID)).dedup).map (aggEntry l2)).find?
      (fun e2 => e2.AggID == id)).map _ = _
  rw [find?_map_aggEntry l2 _ id hid']
  rfl

theorem aggGroup_recOf1 (p s1 s2 : Nat) (rK rV : Nat → Nat)
    (l : List (Nat × rawConversion)) (id : Nat) :
    aggGroup (l.map (recOf1 p s1 s2 rK rV)) id =
      (l.filter (fun ic => aggIDOf p s1 s2 ic.2.Key == id)).map (recOf1 p s1 s2 rK rV) := by
  unfold aggGroup
  rw [List.filter_map]
  rfl

theorem aggGroup_recOf2 (p s1 s2 : Nat) (rK rV : Nat → Nat)
    (l : List (Nat × rawConversion)) (id : Nat) :
    aggGroup (l.map (recOf2 p s1 s2 rK rV)) id =
      (l.filter (fun ic => aggIDOf p s1 s2 ic.2.Key == id)).map (recOf2 p s1 s2 rK rV) := by
  unfold aggGroup
  rw [List.filter_map]
  rfl

theorem enumFrom_filter_snd {β : Type} (q : β → Bool) :
    ∀ (n : Nat) (cs : List β),
      ((List.enumFrom n cs).filter (fun ic => q ic.2)).map (fun ic => ic.2) =
        cs.filter q
  | _, [] => rfl
  | n, c :: t => by
    rw [List.enumFrom_cons]
    simp only [List.filter_cons]
    cases hq : q c <;> simpa [hq] using enumFrom_filter_snd q (n + 1) t

theorem sum_shares_mod (rV : Nat → Nat) :
    ∀ l : List (Nat × rawConversion),
      ((l.map (fun ic => rV ic.1 % M)).sum +
        (l.map (fun ic => (ic.2.Value + (M - rV ic.1 % M)) % M)).sum) % M =
      ((l.map (fun ic => ic.2.Value)).sum) % M
  | [] => rfl
  | ic :: t => by
    simp only [List.map_cons, List.sum_cons]
    have IH := sum_shares_mod rV t
    have hel : (rV ic.1 % M + (ic.2.Value + (M - rV ic.1 % M)) % M) % M
        = ic.2.Value % M := by
      unfold M
      omega
    set a1 := rV ic.1 % M
    set a2 := (ic.2.Value + (M - rV ic.1 % M)) % M
    set S1 := (t.map (fun ic => rV ic.1 % M)).sum
    set S2 := (t.map (fun ic => (ic.2.Value + (M - rV ic.1 % M)) % M)).sum
    set Sv := (t.map (fun ic => ic.2.Value)).sum
    calc (a1 + S1 + (a2 + S2)) % M = ((a1 + a2) + (S1 + S2)) % M := by ring_nf
    _ = ((a1 + a2) % M + (S1 + S2) % M) % M := by rw [Nat.add_mod]
    _ = ((a1 + a2) % M + Sv % M) % M := by rw [IH]
    _ = (ic.2.Value % M + Sv % M) % M := by rw [hel]
    _ = (ic.2.Value + Sv) % M := by rw [← Nat.add_mod]

theorem enum_filter_snd {β : Type} (q : β → Bool) (cs : List β) :
    ((cs.enum).filter (fun ic => q ic.2)).map (fun ic => ic.2) = cs.filter q :=
  enumFrom_filter_snd q 0 cs

theorem enum_filter_aggid_len (p s1 s2 id : Nat) (cs : List rawConversion) :
    ((cs.enum).filter (fun ic => aggIDOf p s1 s2 ic.2.Key == id)).length =
      (cs.filter (fun c => aggIDOf p s1 s2 c.Key == id)).length := by
  rw [← enum_filter_snd (fun c => aggIDOf p s1 s2 c.Key == id) cs, List.length_map]

theorem enum_filter_snd_value (p s1 s2 id : Nat) (cs : List rawConversion) :
    ((cs.enum).filter (fun ic => aggIDOf p s1 s2 ic.2.Key == id)).map
        (fun ic => ic.2.Value) =
      (cs.filter (fun c => aggIDOf p s1 s2 c.Key == id)).map (fun c => c.Value) := by
  rw [← enum_filter_snd (fun c => aggIDOf p s1 s2 c.Key == id) cs, List.map_map]
  rfl

end Pipeline

/-- C4: for every byte string `d` (and every randomness tape `r`), splitting
`d` into two byte shares and combining them back yields exactly `d`:
`CombineBytes(SplitBytes(d)) == d`. -/
theorem combine_split_byte_shares (d : List Nat) (r : Nat → Nat) :
    SecretShare.CombineByteShares
      (SecretShare.SplitIntoByteShares d r).1
      (SecretShare.SplitIntoByteShares d r).2 = .ok d := by
  unfold SecretShare.SplitIntoByteShares SecretShare.CombineByteShares
  simp only []
  have hlen : ((List.range d.length).map (fun i => r i % 256)).length = d.length := by
    simp
  rw [if_pos (by simp [hlen])]
  congr 1
  exact SecretShare.zipWith_xor_left_cancel d
    ((List.range d.length).map (fun i => r i % 256)) (by simp)

/-- C2: for every `(id, value, bitLength)` with `id < 2^bitLength` (and every
PRG, leaf converter and pair of root seeds), expanding both DPF key halves
produced by `GenerateKeyPair` over the full domain and summing point-wise
yields the vector that is zero at every coordinate except `id`, where it
equals `value`. -/
theorem dpf_generate_expand_point_function (prg : DPF.PRG) (convert : Nat → Int)
    (bitLength id : Nat) (value : Int) (s0 s1 : Nat) (hid : id < 2 ^ bitLength) :
    (List.range (2 ^ bitLength)).map (fun x =>
      DPF.dpfEval prg convert
        (DPF.GenerateKeyPair prg convert (DPF.natToBits bitLength id) value s0 s1).1
        (DPF.natToBits bitLength x) +
      DPF.dpfEval prg convert
        (DPF.GenerateKeyPair prg convert (DPF.natToBits bitLength id) value s0 s1).2
        (DPF.natToBits bitLength x)) =
    (List.range (2 ^ bitLength)).map (fun x => if x = id then value else 0) := by
  apply List.map_congr_left
  intro x hx
  have hxlt : x < 2 ^ bitLength := List.mem_range.mp hx
  rw [DPF.dpf_eval_sum prg convert (DPF.natToBits bitLength id) value s0 s1
    (DPF.natToBits bitLength x)
    (by rw [DPF.natToBits_length, DPF.natToBits_length])]
  by_cases hxy : x = id
  · subst hxy
    simp
  · rw [if_neg hxy,
      if_neg (fun hcon => hxy (DPF.natToBits_injOn bitLength x id hxlt hid hcon))]

/-- C2 witness: a concrete instantiation at `bitLength = 2`, `id = 2`,
`value = 7`. -/
theorem dpf_generate_expand_point_function_witness :
    2 < 2 ^ 2 ∧
    (List.range (2 ^ 2)).map (fun x =>
      DPF.dpfEval (fun s => (2 * s + 1, s % 2 == 0, 3 * s, s % 3 == 0)) Int.ofNat
        (DPF.GenerateKeyPair (fun s => (2 * s + 1, s % 2 == 0, 3 * s, s % 3 == 0))
          Int.ofNat (DPF.natToBits 2 2) 7 5 9).1
        (DPF.natToBits 2 x) +
      DPF.dpfEval (fun s => (2 * s + 1, s % 2 == 0, 3 * s, s % 3 == 0)) Int.ofNat
        (DPF.GenerateKeyPair (fun s => (2 * s + 1, s % 2 == 0, 3 * s, s % 3 == 0))
          Int.ofNat (DPF.natToBits 2 2) 7 5 9).2
        (DPF.natToBits 2 x)) =
    (List.range (2 ^ 2)).map (fun x => if x = 2 then (7 : Int) else 0) :=
  ⟨by decide,
    dpf_generate_expand_point_function (fun s => (2 * s + 1, s % 2 == 0, 3 * s, s % 3 == 0))
      Int.ofNat 2 2 7 5 9 (by decide)⟩

/-- C5 counterexample: at value `2` and modulus `2` (tape `0`), combining the
split shares returns `0`, not the original value `2`; the round trip as
claimed for "every value and modulus" fails once the value lies outside
`[0, modulus)`. -/
theorem combine_split_int_counterexample :
    SecretShare.CombineIntShares (SecretShare.SplitIntShares 2 2 0).1
      (SecretShare.SplitIntShares 2 2 0).2 2 ≠ 2 := by decide

/-- C5 (amended): for every modulus and every value in `[0, modulus)` (in
particular every `uint16` value with modulus `2^16`), combining the two
integer shares produced by `SplitInt` under the same modulus returns exactly
the value. -/
theorem combine_split_int_shares (v m r : Int) (h0 : 0 ≤ v) (hv : v < m) :
    SecretShare.CombineIntShares (SecretShare.SplitIntShares v m r).1
      (SecretShare.SplitIntShares v m r).2 m = v := by
  unfold SecretShare.SplitIntShares SecretShare.CombineIntShares
  simp only []
  rw [Int.add_emod (r % m) ((v - r % m) % m) m]
  rw [Int.emod_emod_of_dvd _ dvd_rfl, Int.emod_emod_of_dvd _ dvd_rfl]
  rw [← Int.add_emod]
  have hrw : r + (v - r % m) = v + (r - r % m) := by ring
  rw [hrw]
  have hdm : r - r % m = m * (r / m) := by
    rw [Int.emod_def]; ring
  rw [hdm, Int.add_mul_emod_self_left]
  exact Int.emod_eq_of_lt h0 hv

/-- C5 witness: the amended round trip at the `uint16` modulus `2^16`,
value `513`, tape `7`. -/
theorem combine_split_int_shares_witness :
    SecretShare.CombineIntShares (SecretShare.SplitIntShares 513 65536 7).1
      (SecretShare.SplitIntShares 513 65536 7).2 65536 = 513 :=
  combine_split_int_shares 513 65536 7 (by decide) (by decide)

/-- C7: for every expanded-vector value function `g`, domain size `N` and
positive segment length, the segmented combine (processing the domain in
`segmentLength`-sized chunks) and the direct combine produce identical
totals. -/
theorem segmented_eq_direct_combine (g : Nat → Int) (N s : Nat) (hs : 0 < s) :
    DPFCombine.segmentedCombineVec g N s = DPFCombine.directCombineVec g N := by
  unfold DPFCombine.segmentedCombineVec DPFCombine.directCombineVec
  rw [if_neg (Nat.pos_iff_ne_zero.mp hs)]
  rw [← List.map_flatten, DPFCombine.chunked_flatten]

/-- C7 witness: segmented and direct combine agree on the domain `[0, 5)`
with segment length `2`. -/
theorem segmented_eq_direct_combine_witness :
    DPFCombine.segmentedCombineVec (fun i => (i : Int) * 3 - 4) 5 2 =
      DPFCombine.directCombineVec (fun i => (i : Int) * 3 - 4) 5 :=
  segmented_eq_direct_combine (fun i => (i : Int) * 3 - 4) 5 2 (by decide)

/-- C10: when either helper's half is absent for a report ID, `mergeReportFn`
returns an error identifying the missing helper (helper 1 is checked first),
and emits no combined conversion (the error constructor carries no
emissions). -/
theorem mergeReportFn_missing_half (rid : String)
    (l1 l2 : List BrowserSimulator.PartialReport) (h : l1 = [] ∨ l2 = []) :
    BrowserSimulator.mergeReportFn rid l1 l2 =
      .error (if l1 = [] then "missing partial report for helper 1"
              else "missing partial report for helper 2") := by
  cases l1 with
  | nil => rfl
  | cons pr1 t1 =>
    cases l2 with
    | nil => rfl
    | cons pr2 t2 =>
      rcases h with h | h <;> exact absurd h (by simp)

namespace ScaleScenario

/-- The batch of 100 raw conversions grouped into ~10 distinct keys (the
fresh uuids modelled as keys 1..10) generated by `createConversions`. -/
def conversions : List Pipeline.rawConversion :=
  (Pipeline.createConversions (fun i => i + 1) 100).1

/-- The precomputed expected `(key, sum, count)` triples of the batch. -/
def want : List Pipeline.CompleteResult :=
  (Pipeline.createConversions (fun i => i + 1) 100).2

/-- The two helpers' rekeyed records for the batch: blinding group mod the
prime 101, helper secrets 3 and 7, helper transport keys 3 and 5, concrete
randomness tapes for the key and value shares. -/
def records : List Pipeline.RekeyedRecord × List Pipeline.RekeyedRecord :=
  Pipeline.helperRecords 101 3 7 3 5 (fun i => 37 * i + 11) (fun i => 13 * i + 2)
    conversions

end ScaleScenario

set_option maxRecDepth 40000 in
/-- C3: for the full pipeline run with `ignorePrivacy = true` over the 100
raw conversions grouped into ~10 distinct keys (split, decrypt,
exponentiate, rekey, aggregate, merge), and for every execution order of the
per-record transforms at either helper (any permutations `l1`, `l2` of the
two helpers' record lists), the merged result set exactly equals the
precomputed expected `(key, sum, count)` triples. -/
theorem aggregation_pipeline_scale (l1 l2 : List Pipeline.RekeyedRecord)
    (h1 : l1.Perm ScaleScenario.records.1) (h2 : l2.Perm ScaleScenario.records.2) :
    (Pipeline.MergeAggregation (Pipeline.AggregateDataShare l1)
      (Pipeline.AggregateDataShare l2)).Perm ScaleScenario.want := by
  have hcanon : Pipeline.MergeAggregation
      (Pipeline.AggregateDataShare ScaleScenario.records.1)
      (Pipeline.AggregateDataShare ScaleScenario.records.2) = ScaleScenario.want := by
    decide
  exact (Pipeline.merge_aggregate_perm h1 h2).trans (hcanon ▸ List.Perm.refl _)

/-- C3 witness: the canonical execution order. -/
theorem aggregation_pipeline_scale_witness :
    (Pipeline.MergeAggregation (Pipeline.AggregateDataShare ScaleScenario.records.1)
      (Pipeline.AggregateDataShare ScaleScenario.records.2)).Perm ScaleScenario.want :=
  aggregation_pipeline_scale ScaleScenario.records.1 ScaleScenario.records.2
    (List.Perm.refl _) (List.Perm.refl _)

/-- C9: for every key (aggregation-identifier group) in the merged
aggregation result produced from the two helpers' partial aggregations, the
reported count equals twice the number of raw conversions contributing to
that key (each helper's partial histogram contributes one count per report),
while the reported sum equals the true per-key value sum once (in the
`uint16` value domain). -/
theorem merged_count_twice_sum_once (p s1 s2 pub1 pub2 : Nat) (rK rV : Nat → Nat)
    (cs : List Pipeline.rawConversion) :
    ∀ res ∈ Pipeline.MergeAggregation
        (Pipeline.AggregateDataShare
          (Pipeline.helperRecords p s1 s2 pub1 pub2 rK rV cs).1)
        (Pipeline.AggregateDataShare
          (Pipeline.helperRecords p s1 s2 pub1 pub2 rK rV cs).2),
      ∃ id, res.Count =
          2 * (cs.filter (fun c => Pipeline.aggIDOf p s1 s2 c.Key == id)).length ∧
        res.Sum =
          ((cs.filter (fun c => Pipeline.aggIDOf p s1 s2 c.Key == id)).map
            (fun c => c.Value)).sum % Pipeline.M := by
  intro res hres
  rw [Pipeline.helperRecords_fst, Pipeline.helperRecords_snd,
    Pipeline.mergeAggregation_map_eq _ _
      (by rw [List.map_map, List.map_map]; rfl)] at hres
  obtain ⟨id, hidmem, hmk⟩ := List.mem_map.mp hres
  refine ⟨id, ?_, ?_⟩
  · rw [← hmk]
    show (Pipeline.aggEntry ((cs.enum).map (Pipeline.recOf1 p s1 s2 rK rV)) id).Count +
        (Pipeline.aggEntry ((cs.enum).map (Pipeline.recOf2 p s1 s2 rK rV)) id).Count =
      2 * (cs.filter (fun c => Pipeline.aggIDOf p s1 s2 c.Key == id)).length
    simp only [Pipeline.aggEntry]
    rw [Pipeline.aggGroup_recOf1, Pipeline.aggGroup_recOf2, List.length_map,
      List.length_map, Pipeline.enum_filter_aggid_len]
    omega
  · rw [← hmk]
    show ((Pipeline.aggEntry ((cs.enum).map (Pipeline.recOf1 p s1 s2 rK rV)) id).PartialSum +
        (Pipeline.aggEntry ((cs.enum).map (Pipeline.recOf2 p s1 s2 rK rV)) id).PartialSum) %
          Pipeline.M =
      ((cs.filter (fun c => Pipeline.aggIDOf p s1 s2 c.Key == id)).map
        (fun c => c.Value)).sum % Pipeline.M
    simp only [Pipeline.aggEntry]
    rw [Pipeline.aggGroup_recOf1, Pipeline.aggGroup_recOf2, List.map_map, List.map_map]
    have hs := Pipeline.sum_shares_mod rV
      ((cs.enum).filter (fun ic => Pipeline.aggIDOf p s1 s2 ic.2.Key == id))
    show ((((cs.enum).filter (fun ic => Pipeline.aggIDOf p s1 s2 ic.2.Key == id)).map
          (fun ic => rV ic.1 % Pipeline.M)).sum +
        (((cs.enum).filter (fun ic => Pipeline.aggIDOf p s1 s2 ic.2.Key == id)).map
          (fun ic => (ic.2.Value + (Pipeline.M - rV ic.1 % Pipeline.M)) % Pipeline.M)).sum) %
          Pipeline.M = _
    rw [hs]
    rw [Pipeline.enum_filter_snd_value]

/-- C9 witness: a single conversion with key 1 and value 5 (prime 11, trivial
secrets, zero tapes): the merged result `(1, 5, 2)` has count twice the one
contributing conversion and sum equal to its value. -/
theorem merged_count_twice_sum_once_witness :
    ∃ id, ({ ConversionKey := 1, Sum := 5, Count := 2 } : Pipeline.CompleteResult).Count =
        2 * (([{ Key := 1, Value := 5 }] : List Pipeline.rawConversion).filter
          (fun c => Pipeline.aggIDOf 11 1 1 c.Key == id)).length ∧
      ({ ConversionKey := 1, Sum := 5, Count := 2 } : Pipeline.CompleteResult).Sum =
        ((([{ Key := 1, Value := 5 }] : List Pipeline.rawConversion).filter
          (fun c => Pipeline.aggIDOf 11 1 1 c.Key == id)).map
            (fun c => c.Value)).sum % Pipeline.M :=
  merged_count_twice_sum_once 11 1 1 0 0 (fun _ => 0) (fun _ => 0)
    [{ Key := 1, Value := 5 }] { ConversionKey := 1, Sum := 5, Count := 2 } (by decide)

/-- C6: for every input `d` of length `n`, the tape pairs on which two
independent byte-split calls produce a colliding share (some share of the
first call equal to some share of the second) number at most `2 * 256^n` out
of the `256^n * 256^n` equiprobable pairs — a `2 / 256^n` fraction, i.e. the
shares of the two calls differ with overwhelming probability. -/
theorem byte_split_fresh_collision_bound (n : Nat) (d : RandomShares.ByteVec n) :
    (RandomShares.splitCollisionPairs n d).card ≤ 2 * 256 ^ n ∧
      Fintype.card (RandomShares.ByteVec n × RandomShares.ByteVec n) =
        256 ^ n * 256 ^ n := by
  constructor
  · have hsub : RandomShares.splitCollisionPairs n d ⊆
        Finset.univ.filter
          (fun p : RandomShares.ByteVec n × RandomShares.ByteVec n => p.1 = p.2) ∪
        Finset.univ.filter
          (fun p : RandomShares.ByteVec n × RandomShares.ByteVec n =>
            p.1 = (fun v i => RandomShares.bxor (d i) (v i)) p.2) := by
      intro p hp
      rw [Finset.mem_union]
      unfold RandomShares.splitCollisionPairs at hp
      rw [Finset.mem_filter] at hp
      rcases (RandomShares.splitCollision_iff d p.1 p.2).mp hp.2 with h | h
      · exact Or.inl (Finset.mem_filter.mpr ⟨Finset.mem_univ p, h⟩)
      · exact Or.inr (Finset.mem_filter.mpr ⟨Finset.mem_univ p, h⟩)
    have hcard : (RandomShares.splitCollisionPairs n d).card ≤
        (Finset.univ.filter
          (fun p : RandomShares.ByteVec n × RandomShares.ByteVec n => p.1 = p.2)).card +
        (Finset.univ.filter
          (fun p : RandomShares.ByteVec n × RandomShares.ByteVec n =>
            p.1 = (fun v i => RandomShares.bxor (d i) (v i)) p.2)).card :=
      le_trans (Finset.card_le_card hsub) (Finset.card_union_le _ _)
    rw [RandomShares.card_filter_diag,
      RandomShares.card_filter_fst_eq (fun v i => RandomShares.bxor (d i) (v i))] at hcard
    have hcv : Fintype.card (RandomShares.ByteVec n) = 256 ^ n := by
      rw [Fintype.card_fun, Fintype.card_fin, Fintype.card_fin]
    rw [hcv] at hcard
    omega
  · rw [Fintype.card_prod, Fintype.card_fun, Fintype.card_fin, Fintype.card_fin]

/-- C8: two independent calls of the report-ID generator collide on exactly
`2^128` of the `2^128 * 2^128` equiprobable tape pairs — a `2^-128` fraction,
i.e. the two generated report IDs differ with overwhelming probability. -/
theorem report_id_collision_fraction :
    ReportID.idCollisionPairs.card = 2 ^ 128 ∧
      Fintype.card (Fin (2 ^ 128) × Fin (2 ^ 128)) = 2 ^ 128 * 2 ^ 128 := by
  constructor
  · have heq : ReportID.idCollisionPairs =
        Finset.univ.filter (fun p : Fin (2 ^ 128) × Fin (2 ^ 128) => p.1 = p.2) := by
      apply Finset.filter_congr
      intro p _
      unfold ReportID.createRandomReportID
      rfl
    rw [heq, RandomShares.card_filter_diag, Fintype.card_fin]
  · rw [Fintype.card_prod, Fintype.card_fin]

/-- C10 witness: helper 2's half missing for a present helper-1 half. -/
theorem mergeReportFn_missing_half_witness :
    BrowserSimulator.mergeReportFn "id0" [{ KeyShare := [1], ValueShare := 4 }] [] =
      .error "missing partial report for helper 2" := by
  have := mergeReportFn_missing_half "id0" [{ KeyShare := [1], ValueShare := 4 }] []
    (Or.inr rfl)
  simpa using this
